import Mathlib

/-!
Verification of the coordinate-transform core of `mpl_fold_axis`.

The Python module builds, from a list of `(low, high, factor)` triples, a pair
of piecewise-linear maps `_forward` / `_inverse` used as a matplotlib axis
scale.  We embed the arithmetic over `ℚ` (exact arithmetic; the Python code
uses floats, but every algebraic claim is about the exact recurrences).
NumPy's element-wise masked assignment is modelled per scalar element:
`res[cond] = e` becomes an if-then-else update of the running result, applied
in the same order as the source, so that later assignments overwrite earlier
ones exactly as in the code.  A Python exception (`ValueError` from
validation, `IndexError`/`NameError` from indexing an empty table) is
modelled by `Except`/`Option`.
-/

/-- The two `ValueError`s raised by `create_scale`'s validation loop. -/
inductive ScaleError where
  | unsortedOrOverlapping
  | nonPositiveFactor
deriving DecidableEq

/-- The data captured by the closures `_forward`/`_inverse` built in
`create_scale`: the interleaved boundary list `x0` and slope list `factor`. -/
structure FoldScale where
  x0 : List ℚ
  factor : List ℚ
deriving DecidableEq

/-- Comparison `_prev_b < a` where `_prev_b` may be `float("-inf")`
(modelled as `none`). -/
def prevLt : Option ℚ → ℚ → Bool
  | none, _ => true
  | some p, a => decide (p < a)

/-- The validation-and-build loop of `create_scale` (source lines 201-209).
Faithful to the code: `_prev_b` is threaded through UNCHANGED (the source
never reassigns it inside the loop), so only `a < b` is effectively checked
by the first test. -/
def buildTables : Option ℚ → List (ℚ × ℚ × ℚ) → Except ScaleError (List ℚ × List ℚ)
  | _, [] => .ok ([], [])
  | prevB, (a, b, f) :: rest =>
    if ¬ (a < b ∧ prevLt prevB a = true) then .error .unsortedOrOverlapping
    else if f ≤ 0 then .error .nonPositiveFactor
    else match buildTables prevB rest with
      | .error e => .error e
      | .ok (xs, fs) => .ok (a :: b :: xs, f :: 1 :: fs)

/-- `create_scale`: validate the interval list and capture the tables.
The returned `FoldScale` stands for the `FuncScale`/`FuncScaleLog` object
wrapping `_forward`/`_inverse` (the mode only selects the wrapper class,
the function pair is identical). -/
def create_scale (interval : List (ℚ × ℚ × ℚ)) : Except ScaleError FoldScale :=
  match buildTables none interval with
  | .error e => .error e
  | .ok (xs, fs) => .ok ⟨xs, fs⟩

/-- The loop `for n in range(N - 1)` of `_forward`, for one scalar element
`x`.  Iteration `n` reads the window `x0[n], x0[n+1]` and slope `factor[n]`,
conditionally overwrites the running result, and advances the cumulative
offset `ymin`.  Returns the final `(res, ymin)`. -/
def fwdLoop (x : ℚ) : List ℚ → List ℚ → ℚ → ℚ → ℚ × ℚ
  | f :: fs, xmin :: xmax :: rest, res, ymin =>
    fwdLoop x fs (xmax :: rest)
      (if xmin < x ∧ x ≤ xmax then (x - xmin) * f + ymin else res)
      (ymin + (xmax - xmin) * f)
  | _, _, res, ymin => (res, ymin)

/-- `_forward` on one scalar element.  `none` models the run-time failures of
the source on degenerate tables: `x0[0]` on an empty `x0` (IndexError), the
unbound `xmax` in `res[x > xmax]` when the loop body never ran (NameError),
and `factor[n]`/`factor[-1]` past the end of `factor` (IndexError). -/
def _forward (x0 factor : List ℚ) (x : ℚ) : Option ℚ :=
  match x0, factor with
  | x00 :: x01 :: xrest, f0 :: frest =>
    if (x01 :: xrest).length ≤ (f0 :: frest).length then
      let p := fwdLoop x (f0 :: frest) (x00 :: x01 :: xrest) x x00
      let xmaxLast := (x01 :: xrest).getLastD 0
      let fLast := (f0 :: frest).getLastD 0
      some (if xmaxLast < x then (x - xmaxLast) * fLast + p.2 else p.1)
    else none
  | _, _ => none

/-- The loop `for n in range(N - 1)` of `_inverse`, for one scalar element
`y`.  Iteration `n` forms `ymax = ymin + (xmax - xmin) * factor[n]`,
conditionally overwrites the result, and sets `ymin = ymax`. -/
def invLoop (y : ℚ) : List ℚ → List ℚ → ℚ → ℚ → ℚ × ℚ
  | f :: fs, xmin :: xmax :: rest, res, ymin =>
    invLoop y fs (xmax :: rest)
      (if ymin < y ∧ y ≤ ymin + (xmax - xmin) * f then (y - ymin) / f + xmin else res)
      (ymin + (xmax - xmin) * f)
  | _, _, res, ymin => (res, ymin)

/-- `_inverse` on one scalar element; `none` models the same degenerate-table
failures as `_forward`. -/
def _inverse (x0 factor : List ℚ) (y : ℚ) : Option ℚ :=
  match x0, factor with
  | x00 :: x01 :: xrest, f0 :: frest =>
    if (x01 :: xrest).length ≤ (f0 :: frest).length then
      let p := invLoop y (f0 :: frest) (x00 :: x01 :: xrest) y x00
      let xmaxLast := (x01 :: xrest).getLastD 0
      let fLast := (f0 :: frest).getLastD 0
      some (if p.2 < y then (y - p.2) / fLast + xmaxLast else p.1)
    else none
  | _, _ => none

/-- Forward map of a constructed scale. -/
def FoldScale.forward (s : FoldScale) (x : ℚ) : Option ℚ :=
  _forward s.x0 s.factor x

/-- Inverse map of a constructed scale. -/
def FoldScale.inverse (s : FoldScale) (y : ℚ) : Option ℚ :=
  _inverse s.x0 s.factor y

/-- Observable outcome of the `fold_axis` entry point: which scale (if any)
was installed on the axis, and the `(low, high)` bounds handed to
`add_fold_line` for the break markers, in order. -/
structure FoldResult where
  installedScale : Option FoldScale
  foldLineBounds : List (ℚ × ℚ)
deriving DecidableEq

/-- `fold_axis` (source lines 329-340), abstracted to its effect trace on the
axes: `if not interval: return` short-circuits everything; otherwise
`scale_axis` installs the scale built by `create_scale` (propagating its
errors) and `add_fold_line` is called once per interval with `(a, b)`. -/
def fold_axis (interval : List (ℚ × ℚ × ℚ)) : Except ScaleError FoldResult :=
  if interval.isEmpty then .ok ⟨none, []⟩
  else match create_scale interval with
    | .error e => .error e
    | .ok s => .ok ⟨some s, interval.map (fun t => (t.1, t.2.1))⟩

/-! ### Specification-side validity (§3 of the spec)

An interval list is valid when every `low < high`, consecutive intervals
satisfy `previous.high < next.low`, and every factor is positive.  These
definitions follow the spec's §3 wording and are used as hypotheses of the
algebraic claims. -/

/-- Ordering of a tail of intervals below a known previous `high`. -/
def orderedFrom : ℚ → List (ℚ × ℚ × ℚ) → Bool
  | _, [] => true
  | p, (a, b, _) :: rest => decide (p < a) && decide (a < b) && orderedFrom b rest

/-- §3 ordering invariant: `interval[i].low < interval[i].high` and
`interval[i-1].high < interval[i].low` for all `i`. -/
def orderedIntervals : List (ℚ × ℚ × ℚ) → Bool
  | [] => true
  | (a, b, _) :: rest => decide (a < b) && orderedFrom b rest

/-- §3 factor invariant: every factor is positive. -/
def positiveFactors (l : List (ℚ × ℚ × ℚ)) : Bool :=
  l.all fun t => decide (0 < t.2.2)

/-- A valid IntervalSet in the sense of §3. -/
def validIntervals (l : List (ℚ × ℚ × ℚ)) : Bool :=
  orderedIntervals l && positiveFactors l

/-! ### Analysis layer

Closed forms for the tables built by `create_scale` and a clean structural
recursion (`pwF`/`pwG`) equal to the masked-assignment loops on well-formed
tables.  These are proof devices; the claims are stated against
`create_scale`, `_forward`, `_inverse`, `fold_axis` above. -/

/-- The interleaved boundary list `x0 = [a1, b1, a2, b2, ...]`. -/
def x0List : List (ℚ × ℚ × ℚ) → List ℚ
  | [] => []
  | (a, b, _) :: rest => a :: b :: x0List rest

/-- The interleaved slope list `factor = [f1, 1, f2, 1, ...]`. -/
def factorList : List (ℚ × ℚ × ℚ) → List ℚ
  | [] => []
  | (_, _, f) :: rest => f :: 1 :: factorList rest

/-- The cumulative offset left in `ymin` after the whole loop. -/
def yFinal : List ℚ → List ℚ → ℚ → ℚ
  | f :: fs, xmin :: xmax :: rest, ymin => yFinal fs (xmax :: rest) (ymin + (xmax - xmin) * f)
  | _, _, ymin => ymin

/-- Piecewise forward map beyond the first boundary: scan the windows in
order, land in the first one containing `x`, otherwise extrapolate from the
last boundary with the final slope (which is `factor[-1]`, the one slope the
loop never consumes on an equal-length table). -/
def pwF : List ℚ → List ℚ → ℚ → ℚ → ℚ
  | f :: fs, xmin :: xmax :: rest, ymin, x =>
    if x ≤ xmax then (x - xmin) * f + ymin
    else pwF fs (xmax :: rest) (ymin + (xmax - xmin) * f) x
  | f :: _, xlast :: _, ymin, x => (x - xlast) * f + ymin
  | _, _, _, x => x

/-- Piecewise inverse map beyond the first offset, mirroring `pwF` on the
cumulative-offset windows. -/
def pwG : List ℚ → List ℚ → ℚ → ℚ → ℚ
  | f :: fs, xmin :: xmax :: rest, ymin, y =>
    if y ≤ ymin + (xmax - xmin) * f then (y - ymin) / f + xmin
    else pwG fs (xmax :: rest) (ymin + (xmax - xmin) * f) y
  | f :: _, xlast :: _, ymin, y => (y - ymin) / f + xlast
  | _, _, _, y => y

/-- Total forward map on a non-degenerate table. -/
def fwdFun (x0 factor : List ℚ) (x : ℚ) : ℚ :=
  match x0 with
  | [] => x
  | h :: _ => if x ≤ h then x else pwF factor x0 h x

/-- Total inverse map on a non-degenerate table. -/
def invFun (x0 factor : List ℚ) (y : ℚ) : ℚ :=
  match x0 with
  | [] => y
  | h :: _ => if y ≤ h then y else pwG factor x0 h y

/-! ### Construction lemmas -/

lemma orderedFrom_ordered : ∀ (l : List (ℚ × ℚ × ℚ)) (p : ℚ),
    orderedFrom p l = true → orderedIntervals l = true := by
  intro l
  induction l with
  | nil => intro p _; rfl
  | cons t rest ih =>
    obtain ⟨a, b, f⟩ := t
    intro p h
    simp only [orderedFrom, Bool.and_eq_true, decide_eq_true_eq] at h
    simp only [orderedIntervals, Bool.and_eq_true, decide_eq_true_eq]
    exact ⟨h.1.2, h.2⟩

lemma validIntervals_cons {a b f : ℚ} {rest : List (ℚ × ℚ × ℚ)}
    (h : validIntervals ((a, b, f) :: rest) = true) :
    a < b ∧ 0 < f ∧ orderedFrom b rest = true ∧ validIntervals rest = true := by
  simp only [validIntervals, orderedIntervals, positiveFactors, List.all_cons,
    Bool.and_eq_true, decide_eq_true_eq] at h
  refine ⟨h.1.1, h.2.1, h.1.2, ?_⟩
  simp only [validIntervals, positiveFactors, Bool.and_eq_true]
  exact ⟨orderedFrom_ordered rest b h.1.2, h.2.2⟩

lemma build_eq_of_valid : ∀ (l : List (ℚ × ℚ × ℚ)),
    validIntervals l = true → buildTables none l = .ok (x0List l, factorList l) := by
  intro l
  induction l with
  | nil => intro _; rfl
  | cons t rest ih =>
    obtain ⟨a, b, f⟩ := t
    intro h
    obtain ⟨hab, hf, _, hrest⟩ := validIntervals_cons h
    simp only [buildTables, prevLt, and_true, not_lt, x0List, factorList]
    rw [if_neg (by simp [hab]), if_neg (by simp [not_le, hf]), ih hrest]

lemma create_scale_of_valid (l : List (ℚ × ℚ × ℚ)) (h : validIntervals l = true) :
    create_scale l = .ok ⟨x0List l, factorList l⟩ := by
  simp only [create_scale, build_eq_of_valid l h]

lemma orderedFrom_bound : ∀ (l : List (ℚ × ℚ × ℚ)) (p : ℚ),
    orderedFrom p l = true → ∀ z ∈ x0List l, p < z := by
  intro l
  induction l with
  | nil => intro p _ z hz; simp [x0List] at hz
  | cons t rest ih =>
    obtain ⟨a, b, f⟩ := t
    intro p h z hz
    simp only [orderedFrom, Bool.and_eq_true, decide_eq_true_eq] at h
    obtain ⟨⟨hpa, hab⟩, hrest⟩ := h
    simp only [x0List, List.mem_cons] at hz
    rcases hz with rfl | rfl | hz
    · exact hpa
    · exact hpa.trans hab
    · exact hpa.trans (hab.trans (ih b hrest z hz))

lemma x0List_pairwise : ∀ (l : List (ℚ × ℚ × ℚ)),
    orderedIntervals l = true → List.Pairwise (· < ·) (x0List l) := by
  intro l
  induction l with
  | nil => intro _; simp [x0List]
  | cons t rest ih =>
    obtain ⟨a, b, f⟩ := t
    intro h
    simp only [orderedIntervals, Bool.and_eq_true, decide_eq_true_eq] at h
    obtain ⟨hab, hrest⟩ := h
    have hb := orderedFrom_bound rest b hrest
    have ha : ∀ z ∈ x0List rest, a < z := fun z hz => hab.trans (hb z hz)
    simp only [x0List, List.pairwise_cons, List.mem_cons]
    refine ⟨?_, hb, ih (orderedFrom_ordered rest b hrest)⟩
    rintro z (rfl | hz)
    · exact hab
    · exact ha z hz

lemma factorList_pos : ∀ (l : List (ℚ × ℚ × ℚ)),
    positiveFactors l = true → ∀ f ∈ factorList l, 0 < f := by
  intro l
  induction l with
  | nil => intro _ f hf; simp [factorList] at hf
  | cons t rest ih =>
    obtain ⟨a, b, g⟩ := t
    intro h f hf
    simp only [positiveFactors, List.all_cons, Bool.and_eq_true, decide_eq_true_eq] at h
    simp only [factorList, List.mem_cons] at hf
    rcases hf with rfl | rfl | hf
    · exact h.1
    · exact one_pos
    · exact ih h.2 f hf

lemma x0List_length_eq : ∀ (l : List (ℚ × ℚ × ℚ)),
    (x0List l).length = (factorList l).length := by
  intro l
  induction l with
  | nil => rfl
  | cons t rest ih => obtain ⟨a, b, f⟩ := t; simp [x0List, factorList, ih]

lemma factorList_getLastD : ∀ (l : List (ℚ × ℚ × ℚ)), l ≠ [] →
    (factorList l).getLastD 0 = 1 := by
  intro l
  induction l with
  | nil => intro h; exact absurd rfl h
  | cons t rest ih =>
    obtain ⟨a, b, f⟩ := t
    intro _
    cases rest with
    | nil => rfl
    | cons t2 r2 =>
      obtain ⟨a2, b2, f2⟩ := t2
      simpa [factorList, List.getLastD] using ih (by simp)

lemma x0List_getLastD : ∀ (l : List (ℚ × ℚ × ℚ)) (t : ℚ × ℚ × ℚ),
    l.getLast? = some t → (x0List l).getLastD 0 = t.2.1 := by
  intro l
  induction l with
  | nil => intro t h; simp at h
  | cons u rest ih =>
    obtain ⟨a, b, f⟩ := u
    intro t h
    cases rest with
    | nil =>
      simp only [List.getLast?_singleton, Option.some_inj] at h
      subst h; rfl
    | cons t2 r2 =>
      obtain ⟨a2, b2, f2⟩ := t2
      rw [List.getLast?_cons_cons] at h
      simpa [x0List, List.getLastD] using ih t h

/-! ### Loop-to-piecewise equivalence, forward direction -/

lemma getLastD_irrel {l : List ℚ} (hl : l ≠ []) (d d' : ℚ) :
    l.getLastD d = l.getLastD d' := by
  cases l with
  | nil => exact absurd rfl hl
  | cons a t => rw [List.getLastD_cons, List.getLastD_cons]

lemma pairwise_head_le_getLastD : ∀ (t : List ℚ) (h : ℚ),
    List.Pairwise (· < ·) (h :: t) → h ≤ (h :: t).getLastD 0 := by
  intro t
  induction t with
  | nil => intro h _; simp
  | cons y t' ih =>
    intro h hp
    rcases List.pairwise_cons.mp hp with ⟨h1all, h2⟩
    have h1 : h < y := h1all y (by simp)
    have h2' := ih y h2
    rw [List.getLastD_cons, getLastD_irrel (List.cons_ne_nil y t') h 0]
    exact le_of_lt (lt_of_lt_of_le h1 h2')

lemma fwdLoop_fst_const : ∀ (fs xs : List ℚ) (res ymin x : ℚ),
    (∀ z ∈ xs, x ≤ z) → (fwdLoop x fs xs res ymin).1 = res := by
  intro fs
  induction fs with
  | nil => intro xs res ymin x _; cases xs <;> simp [fwdLoop]
  | cons f fs' ih =>
    intro xs res ymin x hle
    match xs with
    | [] => simp [fwdLoop]
    | [x1] => simp [fwdLoop]
    | xmin :: xmax :: rest =>
      have hxmin : x ≤ xmin := hle xmin (by simp)
      simp only [fwdLoop]
      rw [if_neg (fun hc => absurd hc.1 (not_lt.mpr hxmin))]
      exact ih (xmax :: rest) res (ymin + (xmax - xmin) * f) x
        (fun z hz => hle z (List.mem_cons_of_mem xmin hz))

lemma fwdLoop_snd : ∀ (fs xs : List ℚ) (res ymin x : ℚ),
    (fwdLoop x fs xs res ymin).2 = yFinal fs xs ymin := by
  intro fs
  induction fs with
  | nil => intro xs res ymin x; cases xs <;> simp [fwdLoop, yFinal]
  | cons f fs' ih =>
    intro xs res ymin x
    match xs with
    | [] => simp [fwdLoop, yFinal]
    | [x1] => simp [fwdLoop, yFinal]
    | xmin :: xmax :: rest =>
      simp only [fwdLoop, yFinal]
      exact ih (xmax :: rest) _ _ x

lemma fwdLoop_pwF : ∀ (xs fs : List ℚ) (res ymin x h : ℚ) (t : List ℚ),
    xs = h :: t → xs.length = fs.length → List.Pairwise (· < ·) xs → h < x →
    (if xs.getLastD 0 < x
      then (x - xs.getLastD 0) * fs.getLastD 0 + (fwdLoop x fs xs res ymin).2
      else (fwdLoop x fs xs res ymin).1) = pwF fs xs ymin x := by
  intro xs
  induction xs with
  | nil => intro fs res ymin x h t heq; simp at heq
  | cons x1 xt ih =>
    intro fs res ymin x h t heq hlen hpair hx
    have hx1 : x1 = h := by injection heq
    subst hx1
    cases xt with
    | nil =>
      cases fs with
      | nil => simp at hlen
      | cons f fs0 =>
        cases fs0 with
        | nil => simp [fwdLoop, pwF, hx]
        | cons g gs => simp at hlen
    | cons x2 xt2 =>
      cases fs with
      | nil => simp at hlen
      | cons f1 fs' =>
        have hfs' : fs' ≠ [] := by
          intro hc
          rw [hc] at hlen
          simp at hlen
        have hlast : (x1 :: x2 :: xt2).getLastD 0 = (x2 :: xt2).getLastD 0 := by
          rw [List.getLastD_cons, getLastD_irrel (List.cons_ne_nil x2 xt2) x1 0]
        have hflast : (f1 :: fs').getLastD 0 = fs'.getLastD 0 := by
          rw [List.getLastD_cons, getLastD_irrel hfs' f1 0]
        have hpt : List.Pairwise (· < ·) (x2 :: xt2) := (List.pairwise_cons.mp hpair).2
        simp only [fwdLoop, pwF]
        by_cases hx2 : x ≤ x2
        · have hxle : ∀ z ∈ x2 :: xt2, x ≤ z := by
            intro z hz
            rcases List.mem_cons.mp hz with rfl | hz
            · exact hx2
            · exact le_of_lt (lt_of_le_of_lt hx2 ((List.pairwise_cons.mp hpt).1 z hz))
          have hlastle : x ≤ (x2 :: xt2).getLastD 0 :=
            le_trans hx2 (pairwise_head_le_getLastD xt2 x2 hpt)
          rw [hlast, if_neg (not_lt.mpr hlastle)]
          rw [if_pos (show x1 < x ∧ x ≤ x2 from ⟨hx, hx2⟩), if_pos hx2]
          exact fwdLoop_fst_const fs' (x2 :: xt2) _ _ x hxle
        · have hlen' : (x2 :: xt2).length = fs'.length := by
            simpa using hlen
          rw [hlast, hflast]
          rw [if_neg (show ¬(x1 < x ∧ x ≤ x2) from fun hc => hx2 hc.2), if_neg hx2]
          exact ih fs' res (ymin + (x2 - x1) * f1) x x2 xt2 rfl hlen' hpt (not_le.mp hx2)

/-! ### Loop-to-piecewise equivalence, inverse direction -/

lemma yFinal_le : ∀ (fs xs : List ℚ) (ymin : ℚ),
    List.Pairwise (· < ·) xs → (∀ f ∈ fs, 0 < f) → ymin ≤ yFinal fs xs ymin := by
  intro fs
  induction fs with
  | nil => intro xs ymin _ _; cases xs <;> simp [yFinal]
  | cons f fs' ih =>
    intro xs ymin hpair hpos
    match xs with
    | [] => simp [yFinal]
    | [x1] => simp [yFinal]
    | xmin :: xmax :: rest =>
      have h1 : xmin < xmax := (List.pairwise_cons.mp hpair).1 xmax (by simp)
      have hf : 0 < f := hpos f (by simp)
      have hstep : ymin ≤ ymin + (xmax - xmin) * f :=
        le_add_of_nonneg_right (le_of_lt (mul_pos (sub_pos.mpr h1) hf))
      simp only [yFinal]
      exact le_trans hstep (ih (xmax :: rest) _ (List.pairwise_cons.mp hpair).2
        (fun g hg => hpos g (List.mem_cons_of_mem f hg)))

lemma invLoop_fst_const : ∀ (fs xs : List ℚ) (res ymin y : ℚ),
    List.Pairwise (· < ·) xs → (∀ f ∈ fs, 0 < f) → y ≤ ymin →
    (invLoop y fs xs res ymin).1 = res := by
  intro fs
  induction fs with
  | nil => intro xs res ymin y _ _ _; cases xs <;> simp [invLoop]
  | cons f fs' ih =>
    intro xs res ymin y hpair hpos hy
    match xs with
    | [] => simp [invLoop]
    | [x1] => simp [invLoop]
    | xmin :: xmax :: rest =>
      have h1 : xmin < xmax := (List.pairwise_cons.mp hpair).1 xmax (by simp)
      have hf : 0 < f := hpos f (by simp)
      have hy' : y ≤ ymin + (xmax - xmin) * f :=
        le_trans hy (le_add_of_nonneg_right (le_of_lt (mul_pos (sub_pos.mpr h1) hf)))
      simp only [invLoop]
      rw [if_neg (fun hc => absurd hc.1 (not_lt.mpr hy))]
      exact ih (xmax :: rest) res _ y (List.pairwise_cons.mp hpair).2
        (fun g hg => hpos g (List.mem_cons_of_mem f hg)) hy'

lemma invLoop_snd : ∀ (fs xs : List ℚ) (res ymin y : ℚ),
    (invLoop y fs xs res ymin).2 = yFinal fs xs ymin := by
  intro fs
  induction fs with
  | nil => intro xs res ymin y; cases xs <;> simp [invLoop, yFinal]
  | cons f fs' ih =>
    intro xs res ymin y
    match xs with
    | [] => simp [invLoop, yFinal]
    | [x1] => simp [invLoop, yFinal]
    | xmin :: xmax :: rest =>
      simp only [invLoop, yFinal]
      exact ih (xmax :: rest) _ _ y

lemma invLoop_pwG : ∀ (xs fs : List ℚ) (res ymin y h : ℚ) (t : List ℚ),
    xs = h :: t → xs.length = fs.length → List.Pairwise (· < ·) xs →
    (∀ f ∈ fs, 0 < f) → ymin < y →
    (if (invLoop y fs xs res ymin).2 < y
      then (y - (invLoop y fs xs res ymin).2) / fs.getLastD 0 + xs.getLastD 0
      else (invLoop y fs xs res ymin).1) = pwG fs xs ymin y := by
  intro xs
  induction xs with
  | nil => intro fs res ymin y h t heq; simp at heq
  | cons x1 xt ih =>
    intro fs res ymin y h t heq hlen hpair hpos hy
    have hx1 : x1 = h := by injection heq
    subst hx1
    cases xt with
    | nil =>
      cases fs with
      | nil => simp at hlen
      | cons f fs0 =>
        cases fs0 with
        | nil => simp [invLoop, pwG, hy]
        | cons g gs => simp at hlen
    | cons x2 xt2 =>
      cases fs with
      | nil => simp at hlen
      | cons f1 fs' =>
        have hfs' : fs' ≠ [] := by
          intro hc
          rw [hc] at hlen
          simp at hlen
        have hlast : (x1 :: x2 :: xt2).getLastD 0 = (x2 :: xt2).getLastD 0 := by
          rw [List.getLastD_cons, getLastD_irrel (List.cons_ne_nil x2 xt2) x1 0]
        have hflast : (f1 :: fs').getLastD 0 = fs'.getLastD 0 := by
          rw [List.getLastD_cons, getLastD_irrel hfs' f1 0]
        have hpt : List.Pairwise (· < ·) (x2 :: xt2) := (List.pairwise_cons.mp hpair).2
        have hpos' : ∀ g ∈ fs', 0 < g := fun g hg => hpos g (List.mem_cons_of_mem f1 hg)
        simp only [invLoop, pwG]
        by_cases hy2 : y ≤ ymin + (x2 - x1) * f1
        · have hyfin : y ≤ yFinal fs' (x2 :: xt2) (ymin + (x2 - x1) * f1) :=
            le_trans hy2 (yFinal_le fs' (x2 :: xt2) _ hpt hpos')
          rw [invLoop_snd fs' (x2 :: xt2) _ (ymin + (x2 - x1) * f1) y,
            if_neg (not_lt.mpr hyfin)]
          rw [if_pos (show ymin < y ∧ y ≤ ymin + (x2 - x1) * f1 from ⟨hy, hy2⟩), if_pos hy2]
          exact invLoop_fst_const fs' (x2 :: xt2) _ _ y hpt hpos' hy2
        · have hlen' : (x2 :: xt2).length = fs'.length := by
            simpa using hlen
          rw [hlast, hflast]
          rw [if_neg (show ¬(ymin < y ∧ y ≤ ymin + (x2 - x1) * f1) from fun hc => hy2 hc.2),
            if_neg hy2]
          exact ih fs' res (ymin + (x2 - x1) * f1) y x2 xt2 rfl hlen' hpt hpos'
            (not_le.mp hy2)

lemma inverse_eq_invFun (x0 factor : List ℚ) (y : ℚ)
    (hlen : x0.length = factor.length) (h2 : 2 ≤ x0.length)
    (hpair : List.Pairwise (· < ·) x0) (hpos : ∀ f ∈ factor, 0 < f) :
    _inverse x0 factor y = some (invFun x0 factor y) := by
  cases x0 with
  | nil => simp at h2
  | cons x00 xt =>
    cases xt with
    | nil => simp at h2
    | cons x01 xrest =>
      cases factor with
      | nil => simp at hlen
      | cons f0 frest =>
        have hguard : (x01 :: xrest).length ≤ (f0 :: frest).length := by
          simp only [List.length_cons] at hlen ⊢
          omega
        simp only [_inverse, if_pos hguard]
        by_cases hy : y ≤ x00
        · have hyfin : y ≤ yFinal (f0 :: frest) (x00 :: x01 :: xrest) x00 :=
            le_trans hy (yFinal_le (f0 :: frest) (x00 :: x01 :: xrest) x00 hpair hpos)
          rw [invLoop_snd (f0 :: frest) (x00 :: x01 :: xrest) _ x00 y,
            if_neg (not_lt.mpr hyfin)]
          rw [invLoop_fst_const (f0 :: frest) (x00 :: x01 :: xrest) y x00 y hpair hpos hy]
          simp [invFun, if_pos hy]
        · have hmain := invLoop_pwG (x00 :: x01 :: xrest) (f0 :: frest) y x00 y x00
            (x01 :: xrest) rfl hlen hpair hpos (not_le.mp hy)
          have hlast0 : (x00 :: x01 :: xrest).getLastD 0 = (x01 :: xrest).getLastD 0 := by
            rw [List.getLastD_cons, getLastD_irrel (List.cons_ne_nil x01 xrest) x00 0]
          rw [hlast0] at hmain
          rw [hmain]
          simp [invFun, if_neg hy]

/-! ### Algebraic facts about the piecewise maps -/

lemma pwF_gt : ∀ (xs fs : List ℚ) (ymin x h : ℚ) (t : List ℚ),
    xs = h :: t → xs.length = fs.length → List.Pairwise (· < ·) xs →
    (∀ f ∈ fs, 0 < f) → h < x → ymin < pwF fs xs ymin x := by
  intro xs
  induction xs with
  | nil => intro fs ymin x h t heq; simp at heq
  | cons x1 xt ih =>
    intro fs ymin x h t heq hlen hpair hpos hx
    have hx1 : x1 = h := by injection heq
    subst hx1
    cases xt with
    | nil =>
      cases fs with
      | nil => simp at hlen
      | cons f fs0 =>
        cases fs0 with
        | nil =>
          simp only [pwF]
          have hf : 0 < f := hpos f (by simp)
          nlinarith [mul_pos (sub_pos.mpr hx) hf]
        | cons g gs => simp at hlen
    | cons x2 xt2 =>
      cases fs with
      | nil => simp at hlen
      | cons f1 fs' =>
        have hf1 : 0 < f1 := hpos f1 (by simp)
        have h12 : x1 < x2 := (List.pairwise_cons.mp hpair).1 x2 (by simp)
        simp only [pwF]
        by_cases hx2 : x ≤ x2
        · rw [if_pos hx2]
          nlinarith [mul_pos (sub_pos.mpr hx) hf1]
        · rw [if_neg hx2]
          have hstep : ymin < ymin + (x2 - x1) * f1 := by
            nlinarith [mul_pos (sub_pos.mpr h12) hf1]
          exact lt_trans hstep (ih fs' _ x x2 xt2 rfl (by simpa using hlen)
            (List.pairwise_cons.mp hpair).2
            (fun g hg => hpos g (List.mem_cons_of_mem f1 hg)) (not_le.mp hx2))

lemma pwF_strictMono : ∀ (xs fs : List ℚ) (ymin u v h : ℚ) (t : List ℚ),
    xs = h :: t → xs.length = fs.length → List.Pairwise (· < ·) xs →
    (∀ f ∈ fs, 0 < f) → h < u → u < v →
    pwF fs xs ymin u < pwF fs xs ymin v := by
  intro xs
  induction xs with
  | nil => intro fs ymin u v h t heq; simp at heq
  | cons x1 xt ih =>
    intro fs ymin u v h t heq hlen hpair hpos hu huv
    have hx1 : x1 = h := by injection heq
    subst hx1
    cases xt with
    | nil =>
      cases fs with
      | nil => simp at hlen
      | cons f fs0 =>
        cases fs0 with
        | nil =>
          simp only [pwF]
          have hf : 0 < f := hpos f (by simp)
          nlinarith [mul_pos (sub_pos.mpr huv) hf]
        | cons g gs => simp at hlen
    | cons x2 xt2 =>
      cases fs with
      | nil => simp at hlen
      | cons f1 fs' =>
        have hf1 : 0 < f1 := hpos f1 (by simp)
        have hpt : List.Pairwise (· < ·) (x2 :: xt2) := (List.pairwise_cons.mp hpair).2
        have hpos' : ∀ g ∈ fs', 0 < g := fun g hg => hpos g (List.mem_cons_of_mem f1 hg)
        have hlen' : (x2 :: xt2).length = fs'.length := by simpa using hlen
        simp only [pwF]
        by_cases hv2 : v ≤ x2
        · rw [if_pos hv2, if_pos (le_of_lt (lt_of_lt_of_le huv hv2))]
          nlinarith [mul_pos (sub_pos.mpr huv) hf1]
        · rw [if_neg hv2]
          have hvgt : ymin + (x2 - x1) * f1 < pwF fs' (x2 :: xt2) (ymin + (x2 - x1) * f1) v :=
            pwF_gt (x2 :: xt2) fs' _ v x2 xt2 rfl hlen' hpt hpos' (not_le.mp hv2)
          by_cases hu2 : u ≤ x2
          · rw [if_pos hu2]
            have hle : (u - x1) * f1 + ymin ≤ ymin + (x2 - x1) * f1 := by
              nlinarith [mul_le_mul_of_nonneg_right (sub_le_sub_right hu2 x1) (le_of_lt hf1)]
            exact lt_of_le_of_lt hle hvgt
          · rw [if_neg hu2]
            exact ih fs' _ u v x2 xt2 rfl hlen' hpt hpos' (not_le.mp hu2) huv

lemma pwG_pwF_id : ∀ (xs fs : List ℚ) (ymin x h : ℚ) (t : List ℚ),
    xs = h :: t → xs.length = fs.length → List.Pairwise (· < ·) xs →
    (∀ f ∈ fs, 0 < f) → h < x →
    pwG fs xs ymin (pwF fs xs ymin x) = x := by
  intro xs
  induction xs with
  | nil => intro fs ymin x h t heq; simp at heq
  | cons x1 xt ih =>
    intro fs ymin x h t heq hlen hpair hpos hx
    have hx1 : x1 = h := by injection heq
    subst hx1
    cases xt with
    | nil =>
      cases fs with
      | nil => simp at hlen
      | cons f fs0 =>
        cases fs0 with
        | nil =>
          have hf : f ≠ 0 := ne_of_gt (hpos f (by simp))
          simp only [pwF, pwG]
          rw [add_sub_cancel_right, mul_div_cancel_right₀ _ hf]
          ring
        | cons g gs => simp at hlen
    | cons x2 xt2 =>
      cases fs with
      | nil => simp at hlen
      | cons f1 fs' =>
        have hf1 : 0 < f1 := hpos f1 (by simp)
        have hpt : List.Pairwise (· < ·) (x2 :: xt2) := (List.pairwise_cons.mp hpair).2
        have hpos' : ∀ g ∈ fs', 0 < g := fun g hg => hpos g (List.mem_cons_of_mem f1 hg)
        have hlen' : (x2 :: xt2).length = fs'.length := by simpa using hlen
        simp only [pwF, pwG]
        by_cases hx2 : x ≤ x2
        · rw [if_pos hx2]
          have hcond : (x - x1) * f1 + ymin ≤ ymin + (x2 - x1) * f1 := by
            nlinarith [mul_le_mul_of_nonneg_right (sub_le_sub_right hx2 x1) (le_of_lt hf1)]
          rw [if_pos hcond, add_sub_cancel_right, mul_div_cancel_right₀ _ (ne_of_gt hf1)]
          ring
        · rw [if_neg hx2]
          have hygt : ymin + (x2 - x1) * f1 <
              pwF fs' (x2 :: xt2) (ymin + (x2 - x1) * f1) x :=
            pwF_gt (x2 :: xt2) fs' _ x x2 xt2 rfl hlen' hpt hpos' (not_le.mp hx2)
          rw [if_neg (not_le.mpr hygt)]
          exact ih fs' _ x x2 xt2 rfl hlen' hpt hpos' (not_le.mp hx2)

lemma pwF_tail : ∀ (xs fs : List ℚ) (ymin x h : ℚ) (t : List ℚ),
    xs = h :: t → xs.length = fs.length → List.Pairwise (· < ·) xs →
    xs.getLastD 0 < x →
    pwF fs xs ymin x = (x - xs.getLastD 0) * fs.getLastD 0 + yFinal fs xs ymin := by
  intro xs
  induction xs with
  | nil => intro fs ymin x h t heq; simp at heq
  | cons x1 xt ih =>
    intro fs ymin x h t heq hlen hpair hlt
    have hx1 : x1 = h := by injection heq
    subst hx1
    cases xt with
    | nil =>
      cases fs with
      | nil => simp at hlen
      | cons f fs0 =>
        cases fs0 with
        | nil => simp [pwF, yFinal]
        | cons g gs => simp at hlen
    | cons x2 xt2 =>
      cases fs with
      | nil => simp at hlen
      | cons f1 fs' =>
        have hfs' : fs' ≠ [] := by
          intro hc
          rw [hc] at hlen
          simp at hlen
        have hlast : (x1 :: x2 :: xt2).getLastD 0 = (x2 :: xt2).getLastD 0 := by
          rw [List.getLastD_cons, getLastD_irrel (List.cons_ne_nil x2 xt2) x1 0]
        have hflast : (f1 :: fs').getLastD 0 = fs'.getLastD 0 := by
          rw [List.getLastD_cons, getLastD_irrel hfs' f1 0]
        have hpt : List.Pairwise (· < ·) (x2 :: xt2) := (List.pairwise_cons.mp hpair).2
        have hlen' : (x2 :: xt2).length = fs'.length := by simpa using hlen
        rw [hlast] at hlt ⊢
        have hx2last : x2 ≤ (x2 :: xt2).getLastD 0 :=
          pairwise_head_le_getLastD xt2 x2 hpt
        have hx2 : ¬ x ≤ x2 := not_le.mpr (lt_of_le_of_lt hx2last hlt)
        simp only [pwF, yFinal]
        rw [if_neg hx2, hflast]
        exact ih fs' _ x x2 xt2 rfl hlen' hpt hlt

lemma forward_eq_fwdFun (x0 factor : List ℚ) (x : ℚ)
    (hlen : x0.length = factor.length) (h2 : 2 ≤ x0.length)
    (hpair : List.Pairwise (· < ·) x0) :
    _forward x0 factor x = some (fwdFun x0 factor x) := by
  cases x0 with
  | nil => simp at h2
  | cons x00 xt =>
    cases xt with
    | nil => simp at h2
    | cons x01 xrest =>
      cases factor with
      | nil => simp at hlen
      | cons f0 frest =>
        have hguard : (x01 :: xrest).length ≤ (f0 :: frest).length := by
          simp only [List.length_cons] at hlen ⊢
          omega
        simp only [_forward, if_pos hguard]
        have hlast0 : (x00 :: x01 :: xrest).getLastD 0 = (x01 :: xrest).getLastD 0 := by
          rw [List.getLastD_cons, getLastD_irrel (List.cons_ne_nil x01 xrest) x00 0]
        by_cases hx : x ≤ x00
        · have hxle : ∀ z ∈ x00 :: x01 :: xrest, x ≤ z := by
            intro z hz
            rcases List.mem_cons.mp hz with rfl | hz
            · exact hx
            · exact le_of_lt (lt_of_le_of_lt hx ((List.pairwise_cons.mp hpair).1 z hz))
          have hlastle : x ≤ (x01 :: xrest).getLastD 0 := by
            rw [← hlast0]
            exact le_trans hx (pairwise_head_le_getLastD (x01 :: xrest) x00 hpair)
          rw [if_neg (not_lt.mpr hlastle)]
          rw [fwdLoop_fst_const (f0 :: frest) (x00 :: x01 :: xrest) x x00 x hxle]
          simp [fwdFun, if_pos hx]
        · have hmain := fwdLoop_pwF (x00 :: x01 :: xrest) (f0 :: frest) x x00 x x00
            (x01 :: xrest) rfl hlen hpair (not_le.mp hx)
          rw [hlast0] at hmain
          rw [hmain]
          simp [fwdFun, if_neg hx]

/-! ### Assembling the pieces for valid interval sets -/

lemma valid_ordered {l : List (ℚ × ℚ × ℚ)} (hv : validIntervals l = true) :
    orderedIntervals l = true := by
  simp only [validIntervals, Bool.and_eq_true] at hv
  exact hv.1

lemma valid_positive {l : List (ℚ × ℚ × ℚ)} (hv : validIntervals l = true) :
    positiveFactors l = true := by
  simp only [validIntervals, Bool.and_eq_true] at hv
  exact hv.2

lemma x0List_two_le {l : List (ℚ × ℚ × ℚ)} (hne : l ≠ []) : 2 ≤ (x0List l).length := by
  cases l with
  | nil => exact absurd rfl hne
  | cons t rest => obtain ⟨a, b, f⟩ := t; simp [x0List]

lemma scale_eq_tables (l : List (ℚ × ℚ × ℚ)) (s : FoldScale)
    (hv : validIntervals l = true) (hs : create_scale l = .ok s) :
    s = ⟨x0List l, factorList l⟩ := by
  rw [create_scale_of_valid l hv] at hs
  exact (Except.ok.inj hs).symm

lemma forward_valid (l : List (ℚ × ℚ × ℚ)) (hv : validIntervals l = true)
    (hne : l ≠ []) (x : ℚ) :
    _forward (x0List l) (factorList l) x = some (fwdFun (x0List l) (factorList l) x) :=
  forward_eq_fwdFun _ _ x (x0List_length_eq l) (x0List_two_le hne)
    (x0List_pairwise l (valid_ordered hv))

lemma inverse_valid (l : List (ℚ × ℚ × ℚ)) (hv : validIntervals l = true)
    (hne : l ≠ []) (y : ℚ) :
    _inverse (x0List l) (factorList l) y = some (invFun (x0List l) (factorList l) y) :=
  inverse_eq_invFun _ _ y (x0List_length_eq l) (x0List_two_le hne)
    (x0List_pairwise l (valid_ordered hv)) (factorList_pos l (valid_positive hv))

lemma fwdFun_invFun (x0 factor : List ℚ) (x : ℚ)
    (hlen : x0.length = factor.length) (h2 : 2 ≤ x0.length)
    (hpair : List.Pairwise (· < ·) x0) (hpos : ∀ f ∈ factor, 0 < f) :
    invFun x0 factor (fwdFun x0 factor x) = x := by
  cases x0 with
  | nil => simp at h2
  | cons h xt =>
    simp only [fwdFun, invFun]
    by_cases hx : x ≤ h
    · rw [if_pos hx, if_pos hx]
    · rw [if_neg hx]
      have hgt : h < pwF factor (h :: xt) h x :=
        pwF_gt (h :: xt) factor h x h xt rfl hlen hpair hpos (not_le.mp hx)
      rw [if_neg (not_le.mpr hgt)]
      exact pwG_pwF_id (h :: xt) factor h x h xt rfl hlen hpair hpos (not_le.mp hx)

lemma ordered_cons {a b f : ℚ} {rest : List (ℚ × ℚ × ℚ)}
    (h : orderedIntervals ((a, b, f) :: rest) = true) :
    a < b ∧ orderedIntervals rest = true := by
  simp only [orderedIntervals, Bool.and_eq_true, decide_eq_true_eq] at h
  exact ⟨h.1, orderedFrom_ordered rest b h.2⟩

lemma buildTables_nonpos : ∀ (l : List (ℚ × ℚ × ℚ)), orderedIntervals l = true →
    ((buildTables none l = .error .nonPositiveFactor) ↔ ∃ t ∈ l, t.2.2 ≤ 0) := by
  intro l
  induction l with
  | nil =>
    intro _
    constructor
    · intro hc; exact absurd hc (by simp [buildTables])
    · rintro ⟨t, ht, _⟩; simp at ht
  | cons t rest ih =>
    obtain ⟨a, b, f⟩ := t
    intro h
    obtain ⟨hab, hrest⟩ := ordered_cons h
    have ihr := ih hrest
    simp only [buildTables, prevLt]
    rw [if_neg (by simp [hab])]
    by_cases hf : f ≤ 0
    · rw [if_pos hf]
      constructor
      · intro _; exact ⟨(a, b, f), by simp, hf⟩
      · intro _; rfl
    · rw [if_neg hf]
      constructor
      · intro hmatch
        cases hb : buildTables none rest with
        | error e =>
          rw [hb] at hmatch
          cases e with
          | unsortedOrOverlapping => exact absurd hmatch (by simp)
          | nonPositiveFactor =>
            obtain ⟨u, hu, huf⟩ := ihr.mp hb
            exact ⟨u, List.mem_cons_of_mem _ hu, huf⟩
        | ok p =>
          obtain ⟨xs, fs⟩ := p
          rw [hb] at hmatch
          exact absurd hmatch (by simp)
      · rintro ⟨u, hu, huf⟩
        rcases List.mem_cons.mp hu with rfl | hu
        · exact absurd huf hf
        · rw [ihr.mpr ⟨u, hu, huf⟩]

lemma create_scale_error_iff (l : List (ℚ × ℚ × ℚ)) (e : ScaleError) :
    create_scale l = .error e ↔ buildTables none l = .error e := by
  simp only [create_scale]
  cases hb : buildTables none l with
  | error e2 => simp
  | ok p => obtain ⟨xs, fs⟩ := p; simp

/-! ### The claims -/

/-- C1 (code evaluation at the failing inputs): `create_scale` ACCEPTS both
`[(-5,5,1.0), (0,10,1.0)]` (overlapping) and `[(5,10,1.0), (-5,0,1.0)]`
(unsorted), returning a scale instead of raising
`UnsortedOrOverlappingError`: the source initializes `_prev_b` to `-inf` but
never updates it inside the loop, so the sorted/non-overlap part of the
check is dead code and only `low < high` is enforced. -/
theorem c1_overlap_unsorted_accepted :
    create_scale [((-5 : ℚ), 5, 1), (0, 10, 1)] = .ok ⟨[-5, 5, 0, 10], [1, 1, 1, 1]⟩ ∧
    create_scale [((5 : ℚ), 10, 1), (-5, 0, 1)] = .ok ⟨[5, 10, -5, 0], [1, 1, 1, 1]⟩ := by
  constructor <;> norm_num [create_scale, buildTables, prevLt]

/-- C4: for the single-interval configuration `[(2, 8, 0.1)]` the constructed
transform satisfies `forward(0)=0`, `forward(2)=2`, `forward(5)=2.3`,
`forward(8)=2.6`, `forward(10)=4.6`, `inverse(2.3)=5`, `inverse(4.6)=10`
(exactly, over ℚ). -/
theorem c4_single_interval_values :
    create_scale [((2 : ℚ), 8, 1/10)] = .ok ⟨[2, 8], [1/10, 1]⟩ ∧
    (FoldScale.mk [2, 8] [1/10, 1]).forward 0 = some 0 ∧
    (FoldScale.mk [2, 8] [1/10, 1]).forward 2 = some 2 ∧
    (FoldScale.mk [2, 8] [1/10, 1]).forward 5 = some (23/10) ∧
    (FoldScale.mk [2, 8] [1/10, 1]).forward 8 = some (13/5) ∧
    (FoldScale.mk [2, 8] [1/10, 1]).forward 10 = some (23/5) ∧
    (FoldScale.mk [2, 8] [1/10, 1]).inverse (23/10) = some 5 ∧
    (FoldScale.mk [2, 8] [1/10, 1]).inverse (23/5) = some 10 := by
  refine ⟨?_, ?_, ?_, ?_, ?_, ?_, ?_, ?_⟩ <;>
    norm_num [create_scale, buildTables, prevLt, FoldScale.forward, FoldScale.inverse,
      _forward, _inverse, fwdLoop, invLoop]

/-- C5: for the two-interval configuration `[(-28,-2,0.015), (2,28,0.015)]`
the constructed transform satisfies `forward(-2)=-27.61`,
`forward(2)=-23.61`, `forward(28)=-23.22`, `forward(40)=-11.22`, and each of
these display values maps back through `inverse` to its data value exactly. -/
theorem c5_two_interval_values :
    create_scale [((-28 : ℚ), -2, 3/200), (2, 28, 3/200)] =
      .ok ⟨[-28, -2, 2, 28], [3/200, 1, 3/200, 1]⟩ ∧
    (FoldScale.mk [-28, -2, 2, 28] [3/200, 1, 3/200, 1]).forward (-2) = some (-2761/100) ∧
    (FoldScale.mk [-28, -2, 2, 28] [3/200, 1, 3/200, 1]).forward 2 = some (-2361/100) ∧
    (FoldScale.mk [-28, -2, 2, 28] [3/200, 1, 3/200, 1]).forward 28 = some (-1161/50) ∧
    (FoldScale.mk [-28, -2, 2, 28] [3/200, 1, 3/200, 1]).forward 40 = some (-561/50) ∧
    (FoldScale.mk [-28, -2, 2, 28] [3/200, 1, 3/200, 1]).inverse (-2761/100) = some (-2) ∧
    (FoldScale.mk [-28, -2, 2, 28] [3/200, 1, 3/200, 1]).inverse (-2361/100) = some 2 ∧
    (FoldScale.mk [-28, -2, 2, 28] [3/200, 1, 3/200, 1]).inverse (-1161/50) = some 28 ∧
    (FoldScale.mk [-28, -2, 2, 28] [3/200, 1, 3/200, 1]).inverse (-561/50) = some 40 := by
  refine ⟨?_, ?_, ?_, ?_, ?_, ?_, ?_, ?_, ?_⟩ <;>
    norm_num [create_scale, buildTables, prevLt, FoldScale.forward, FoldScale.inverse,
      _forward, _inverse, fwdLoop, invLoop]

/-- C9: calling `fold_axis` with an empty interval list is a no-op: it
returns immediately with no error, no scale is installed on the axis, and no
fold markers are requested from the renderer. -/
theorem c9_fold_axis_empty_noop :
    fold_axis [] = .ok ⟨none, []⟩ := rfl

/-- C10: `create_scale []` itself does not raise and returns a scale object
over empty tables, but the `_forward`/`_inverse` closures it wraps fail on
EVERY input (`x0[0]` indexes an empty list), so the empty-list no-op
guarantee holds only at the `fold_axis` entry point. -/
theorem c10_create_scale_empty_unsafe :
    create_scale ([] : List (ℚ × ℚ × ℚ)) = .ok ⟨[], []⟩ ∧
    (∀ x : ℚ, (FoldScale.mk [] []).forward x = none) ∧
    (∀ y : ℚ, (FoldScale.mk [] []).inverse y = none) :=
  ⟨rfl, fun _ => rfl, fun _ => rfl⟩

lemma fwdFun_strictMono (x0 factor : List ℚ) (u v : ℚ)
    (hlen : x0.length = factor.length) (h2 : 2 ≤ x0.length)
    (hpair : List.Pairwise (· < ·) x0) (hpos : ∀ f ∈ factor, 0 < f)
    (huv : u < v) : fwdFun x0 factor u < fwdFun x0 factor v := by
  cases x0 with
  | nil => simp at h2
  | cons h xt =>
    simp only [fwdFun]
    by_cases hu : u ≤ h
    · rw [if_pos hu]
      by_cases hv2 : v ≤ h
      · rw [if_pos hv2]; exact huv
      · rw [if_neg hv2]
        exact lt_of_le_of_lt hu
          (pwF_gt (h :: xt) factor h v h xt rfl hlen hpair hpos (not_le.mp hv2))
    · rw [if_neg hu, if_neg (not_le.mpr (lt_trans (not_le.mp hu) huv))]
      exact pwF_strictMono (h :: xt) factor h u v h xt rfl hlen hpair hpos
        (not_le.mp hu) huv

lemma fwdFun_tail (x0 factor : List ℚ) (u v : ℚ)
    (hlen : x0.length = factor.length) (h2 : 2 ≤ x0.length)
    (hpair : List.Pairwise (· < ·) x0)
    (hu : x0.getLastD 0 < u) (hv : x0.getLastD 0 < v) :
    fwdFun x0 factor v - fwdFun x0 factor u = (v - u) * factor.getLastD 0 := by
  cases x0 with
  | nil => simp at h2
  | cons h xt =>
    have hhead : h ≤ (h :: xt).getLastD 0 := pairwise_head_le_getLastD xt h hpair
    have hu' : h < u := lt_of_le_of_lt hhead hu
    have hv' : h < v := lt_of_le_of_lt hhead hv
    simp only [fwdFun]
    rw [if_neg (not_le.mpr hv'), if_neg (not_le.mpr hu')]
    rw [pwF_tail (h :: xt) factor h v h xt rfl hlen hpair hv,
      pwF_tail (h :: xt) factor h u h xt rfl hlen hpair hu]
    ring

/-- C2: for every valid non-empty IntervalSet and every rational `x`, the
constructed transform satisfies `inverse(forward(x)) = x` exactly. -/
theorem c2_roundtrip (l : List (ℚ × ℚ × ℚ)) (hv : validIntervals l = true)
    (hne : l ≠ []) (s : FoldScale) (hs : create_scale l = .ok s) (x : ℚ) :
    (s.forward x).bind s.inverse = some x := by
  obtain rfl := scale_eq_tables l s hv hs
  simp only [FoldScale.forward, FoldScale.inverse]
  rw [forward_valid l hv hne x, Option.some_bind, inverse_valid l hv hne,
    fwdFun_invFun _ _ x (x0List_length_eq l) (x0List_two_le hne)
      (x0List_pairwise l (valid_ordered hv)) (factorList_pos l (valid_positive hv))]

/-- C2 witness: the round-trip theorem applied to the concrete valid
configuration `[(2, 8, 0.1)]` at `x = 5`. -/
theorem c2_roundtrip_witness :
    ((FoldScale.mk [2, 8] [1/10, 1]).forward 5).bind
      (FoldScale.mk [2, 8] [1/10, 1]).inverse = some 5 :=
  c2_roundtrip [((2 : ℚ), 8, 1/10)]
    (by norm_num [validIntervals, orderedIntervals, orderedFrom, positiveFactors])
    (by simp) (FoldScale.mk [2, 8] [1/10, 1])
    (by norm_num [create_scale, buildTables, prevLt]) 5

/-- C3: for every valid non-empty IntervalSet, the constructed forward map is
strictly monotonically increasing: `x1 < x2` implies
`forward(x1) < forward(x2)`. -/
theorem c3_forward_strictMono (l : List (ℚ × ℚ × ℚ)) (hv : validIntervals l = true)
    (hne : l ≠ []) (s : FoldScale) (hs : create_scale l = .ok s)
    (x1 x2 y1 y2 : ℚ) (h12 : x1 < x2)
    (h1 : s.forward x1 = some y1) (h2 : s.forward x2 = some y2) : y1 < y2 := by
  obtain rfl := scale_eq_tables l s hv hs
  simp only [FoldScale.forward] at h1 h2
  rw [forward_valid l hv hne x1] at h1
  rw [forward_valid l hv hne x2] at h2
  obtain rfl := Option.some.inj h1
  obtain rfl := Option.some.inj h2
  exact fwdFun_strictMono _ _ x1 x2 (x0List_length_eq l) (x0List_two_le hne)
    (x0List_pairwise l (valid_ordered hv)) (factorList_pos l (valid_positive hv)) h12

/-- C3 witness: the monotonicity theorem applied to `[(2, 8, 0.1)]` with
`x1 = 0 < x2 = 5` and the evaluated forward images `0 < 2.3`. -/
theorem c3_forward_strictMono_witness :
    (FoldScale.mk [2, 8] [1/10, 1]).forward 0 = some 0 ∧
    (FoldScale.mk [2, 8] [1/10, 1]).forward 5 = some (23/10) ∧
    (0 : ℚ) < 23/10 := by
  have hf0 : (FoldScale.mk [2, 8] [1/10, 1]).forward 0 = some 0 := by
    norm_num [FoldScale.forward, _forward, fwdLoop]
  have hf5 : (FoldScale.mk [2, 8] [1/10, 1]).forward 5 = some (23/10) := by
    norm_num [FoldScale.forward, _forward, fwdLoop]
  refine ⟨hf0, hf5, ?_⟩
  exact c3_forward_strictMono [((2 : ℚ), 8, 1/10)]
    (by norm_num [validIntervals, orderedIntervals, orderedFrom, positiveFactors])
    (by simp) (FoldScale.mk [2, 8] [1/10, 1])
    (by norm_num [create_scale, buildTables, prevLt])
    0 5 0 (23/10) (by norm_num) hf0 hf5

/-- C6: for an interval list satisfying the §3 ordering invariant,
`create_scale` raises `NonPositiveFactorError` if and only if some factor is
`≤ 0`. -/
theorem c6_nonpositive_factor_iff (l : List (ℚ × ℚ × ℚ))
    (ho : orderedIntervals l = true) :
    create_scale l = .error .nonPositiveFactor ↔ ∃ t ∈ l, t.2.2 ≤ 0 := by
  rw [create_scale_error_iff]
  exact buildTables_nonpos l ho

/-- C6 witness: the single interval `(-5, 5, 0.0)` is ordered and is rejected
with `NonPositiveFactorError`. -/
theorem c6_nonpositive_factor_iff_witness :
    orderedIntervals [((-5 : ℚ), 5, 0)] = true ∧
    create_scale [((-5 : ℚ), 5, 0)] = .error .nonPositiveFactor := by
  have ho : orderedIntervals [((-5 : ℚ), 5, 0)] = true := by
    norm_num [orderedIntervals, orderedFrom]
  exact ⟨ho, (c6_nonpositive_factor_iff [((-5 : ℚ), 5, 0)] ho).mpr
    ⟨((-5 : ℚ), 5, 0), by simp, le_refl 0⟩⟩

/-- C7: for every valid IntervalSet and every `x` at or below the first
interval's `low`, `forward(x) = x`. -/
theorem c7_identity_below_first (a b f : ℚ) (rest : List (ℚ × ℚ × ℚ))
    (hv : validIntervals ((a, b, f) :: rest) = true) (s : FoldScale)
    (hs : create_scale ((a, b, f) :: rest) = .ok s) (x : ℚ) (hx : x ≤ a) :
    s.forward x = some x := by
  obtain rfl := scale_eq_tables _ s hv hs
  simp only [FoldScale.forward]
  rw [forward_valid _ hv (by simp) x]
  simp only [x0List, fwdFun]
  rw [if_pos hx]

/-- C7 witness: the identity theorem applied to `[(2, 8, 0.1)]` at `x = 1`. -/
theorem c7_identity_below_first_witness :
    (FoldScale.mk [2, 8] [1/10, 1]).forward 1 = some 1 :=
  c7_identity_below_first 2 8 (1/10) []
    (by norm_num [validIntervals, orderedIntervals, orderedFrom, positiveFactors])
    (FoldScale.mk [2, 8] [1/10, 1])
    (by norm_num [create_scale, buildTables, prevLt]) 1 (by norm_num)

/-- C8: for every valid IntervalSet and all `x, x'` strictly beyond the last
interval's `high`, `forward(x') - forward(x) = x' - x`: the tail extrapolates
with unit slope. -/
theorem c8_unit_slope_tail (l : List (ℚ × ℚ × ℚ)) (hv : validIntervals l = true)
    (t : ℚ × ℚ × ℚ) (hlast : l.getLast? = some t) (s : FoldScale)
    (hs : create_scale l = .ok s) (x x' y y' : ℚ)
    (hx : t.2.1 < x) (hx' : t.2.1 < x')
    (hy : s.forward x = some y) (hy' : s.forward x' = some y') :
    y' - y = x' - x := by
  obtain rfl := scale_eq_tables l s hv hs
  have hne : l ≠ [] := by rintro rfl; simp at hlast
  simp only [FoldScale.forward] at hy hy'
  rw [forward_valid l hv hne] at hy hy'
  obtain rfl := Option.some.inj hy
  obtain rfl := Option.some.inj hy'
  have hdiff := fwdFun_tail (x0List l) (factorList l) x x'
    (x0List_length_eq l) (x0List_two_le hne) (x0List_pairwise l (valid_ordered hv))
    (by rw [x0List_getLastD l t hlast]; exact hx)
    (by rw [x0List_getLastD l t hlast]; exact hx')
  rw [factorList_getLastD l hne] at hdiff
  rw [hdiff]
  ring

/-- C8 witness: the unit-slope theorem applied to `[(2, 8, 0.1)]` at
`x = 9, x' = 10`, whose forward images `3.6` and `4.6` differ by `1`. -/
theorem c8_unit_slope_tail_witness :
    (FoldScale.mk [2, 8] [1/10, 1]).forward 9 = some (18/5) ∧
    (FoldScale.mk [2, 8] [1/10, 1]).forward 10 = some (23/5) ∧
    (23/5 : ℚ) - 18/5 = 10 - 9 := by
  have h9 : (FoldScale.mk [2, 8] [1/10, 1]).forward 9 = some (18/5) := by
    norm_num [FoldScale.forward, _forward, fwdLoop]
  have h10 : (FoldScale.mk [2, 8] [1/10, 1]).forward 10 = some (23/5) := by
    norm_num [FoldScale.forward, _forward, fwdLoop]
  refine ⟨h9, h10, ?_⟩
  exact c8_unit_slope_tail [((2 : ℚ), 8, 1/10)]
    (by norm_num [validIntervals, orderedIntervals, orderedFrom, positiveFactors])
    (2, 8, 1/10) (by simp) (FoldScale.mk [2, 8] [1/10, 1])
    (by norm_num [create_scale, buildTables, prevLt])
    9 10 (18/5) (23/5) (by norm_num) (by norm_num) h9 h10
